import Mathlib

/-!
# Verification of retracesoftware.stream

A shallow embedding of the Python package `retracesoftware.stream`
(file `src/retracesoftware/stream/__init__.py`), together with theorems
checking the natural-language specification against the code.

Bytes are modelled as `List Nat` (each element a byte value), file
contents as a byte list, and the stateful Python objects as explicit
state-passing Lean functions.
-/

namespace RetraceStream

/-- Little-endian 2-byte rendering of a natural number,
as produced by `struct.Struct` format `<H`. -/
def u16le (n : Nat) : List Nat :=
  [n % 256, n / 256 % 256]

/-- Little-endian 4-byte rendering of a natural number,
as produced by `struct.Struct` format `<I`. -/
def u32le (n : Nat) : List Nat :=
  [n % 256, n / 256 % 256, n / 256 ^ 2 % 256, n / 256 ^ 3 % 256]

/-- Little-endian interpretation of a byte list,
as computed by Python `int.from_bytes(bs, 'little')`. -/
def fromLE : List Nat → Nat
  | [] => 0
  | b :: bs => b % 256 + 256 * fromLE bs

theorem fromLE_u16le (n : Nat) (h : n < 2 ^ 16) : fromLE (u16le n) = n := by
  simp only [u16le, fromLE]
  have h1 : n % 256 % 256 = n % 256 := by omega
  omega

theorem fromLE_u32le (n : Nat) (h : n < 2 ^ 32) : fromLE (u32le n) = n := by
  simp only [u32le, fromLE]
  have h1 : n % 256 % 256 = n % 256 := by omega
  have h2 : n / 256 % 256 % 256 = n / 256 % 256 := by omega
  have h3 : n / 256 ^ 2 % 256 % 256 = n / 256 ^ 2 % 256 := by omega
  have h4 : n / 256 ^ 3 % 256 % 256 = n / 256 ^ 3 % 256 := by omega
  have e2 : (256 : Nat) ^ 2 = 256 * 256 := by norm_num
  have e3 : (256 : Nat) ^ 3 = 256 * (256 * 256) := by norm_num
  have d2 : n / 256 ^ 2 = n / 256 / 256 := by
    rw [e2, Nat.div_div_eq_div_mul]
  have d3 : n / 256 ^ 3 = n / 256 / 256 / 256 := by
    rw [e3, ← Nat.div_div_eq_div_mul, ← Nat.div_div_eq_div_mul]
  rw [d2, d3]
  omega

/-- The maximum payload length of a PID frame (`0xFFFF`),
from `FileOutput.__call__`: `chunk = min(len(raw) - offset, 0xFFFF)`. -/
def maxChunk : Nat := 0xFFFF

/-- The chunks into which `FileOutput.__call__` slices its input:
repeatedly take `min(remaining, 0xFFFF)` bytes until none remain. -/
def chunksOf (raw : List Nat) : List (List Nat) :=
  if raw = [] then []
  else
    raw.take (min raw.length maxChunk) :: chunksOf (raw.drop (min raw.length maxChunk))
termination_by raw.length
decreasing_by
  rename_i hne
  have hlen : 0 < raw.length := List.length_pos.mpr hne
  have hmin : 0 < min raw.length maxChunk := by
    simp only [maxChunk]
    omega
  simp only [List.length_drop]
  omega

/-- One PID frame as written by `FileOutput.__call__`:
`self._FRAME_HEADER.pack(self._pid, chunk)` (format `<IH`) followed by the
payload slice. -/
def pidFrame (pid : Nat) (payload : List Nat) : List Nat :=
  u32le pid ++ u16le payload.length ++ payload

/-- `FileOutput.__call__(data)`: the bytes appended to the file.  The
Python loop walks an offset through `raw`, emitting a `<IH` header and a
chunk of at most `0xFFFF` bytes each iteration; here it is the same loop
as structural recursion on the remaining bytes. -/
def fileOutputCall (pid : Nat) (raw : List Nat) : List Nat :=
  if raw = [] then []
  else
    pidFrame pid (raw.take (min raw.length maxChunk)) ++
      fileOutputCall pid (raw.drop (min raw.length maxChunk))
termination_by raw.length
decreasing_by
  rename_i hne
  have hlen : 0 < raw.length := List.length_pos.mpr hne
  have hmin : 0 < min raw.length maxChunk := by
    simp only [maxChunk]
    omega
  simp only [List.length_drop]
  omega

theorem fileOutputCall_eq_chunks (pid : Nat) (raw : List Nat) :
    fileOutputCall pid raw = ((chunksOf raw).map (pidFrame pid)).flatten := by
  induction raw using chunksOf.induct with
  | case1 => rw [fileOutputCall, chunksOf]; simp
  | case2 raw hne ih =>
    rw [fileOutputCall, chunksOf]
    simp only [if_neg hne, List.map_cons, List.flatten_cons]
    rw [ih]

theorem chunksOf_flatten (raw : List Nat) : (chunksOf raw).flatten = raw := by
  induction raw using chunksOf.induct with
  | case1 => rw [chunksOf]; simp
  | case2 raw hne ih =>
    rw [chunksOf]
    simp only [if_neg hne, List.flatten_cons]
    rw [ih, List.take_append_drop]

theorem chunksOf_length_le (raw : List Nat) :
    ∀ c ∈ chunksOf raw, c.length ≤ maxChunk := by
  induction raw using chunksOf.induct with
  | case1 => rw [chunksOf]; simp
  | case2 raw hne ih =>
    rw [chunksOf]
    simp only [if_neg hne, List.mem_cons]
    rintro c (rfl | hc)
    · simp only [List.length_take]
      omega
    · exact ih c hc

theorem chunksOf_length_pos (raw : List Nat) :
    ∀ c ∈ chunksOf raw, 0 < c.length := by
  induction raw using chunksOf.induct with
  | case1 => rw [chunksOf]; simp
  | case2 raw hne ih =>
    rw [chunksOf]
    simp only [if_neg hne, List.mem_cons]
    have hlen : 0 < raw.length := List.length_pos.mpr hne
    rintro c (rfl | hc)
    · simp only [List.length_take, maxChunk]
      omega
    · exact ih c hc

/-! ## `list_pids` (scanning a PID-framed trace) -/

/-- `list_pids(path)`: scan the byte contents of a trace.  Each step reads
6 bytes (`f.read(6)`), stops when fewer than 6 remain, interprets the first
4 as a little-endian pid and the next 2 as a little-endian length, records
the pid, and seeks `length` bytes forward (`f.seek(length, 1)`). -/
def list_pids (bs : List Nat) : Finset Nat :=
  if _h : 6 ≤ bs.length then
    insert (fromLE (bs.take 4)) (list_pids ((bs.drop 6).drop (fromLE ((bs.drop 4).take 2))))
  else ∅
termination_by bs.length
decreasing_by
  simp only [List.length_drop]
  omega

/-- An abstract PID frame before rendering: a pid and a payload. -/
structure Frame where
  pid : Nat
  payload : List Nat

/-- A frame rendered to bytes: `<pid:u32 LE><length:u16 LE><payload>`. -/
def renderFrame (f : Frame) : List Nat :=
  u32le f.pid ++ u16le f.payload.length ++ f.payload

/-- A whole trace: the concatenation of its frames' renderings. -/
def renderFrames (fs : List Frame) : List Nat :=
  (fs.map renderFrame).flatten

/-- A frame list is well formed when every pid fits in a u32 and every
payload length fits in a u16 (as `FileOutput` guarantees). -/
def framesWF (fs : List Frame) : Prop :=
  ∀ f ∈ fs, f.pid < 2 ^ 32 ∧ f.payload.length ≤ 0xFFFF

/-- The pids of the frames whose full 6-byte header lies within the first
`k` bytes of the rendered trace. -/
def pidsOfComplete : List Frame → Nat → Finset Nat
  | [], _ => ∅
  | f :: rest, k =>
    if 6 ≤ k then insert f.pid (pidsOfComplete rest (k - (6 + f.payload.length)))
    else ∅

theorem renderFrame_length (f : Frame) :
    (renderFrame f).length = 6 + f.payload.length := by
  simp [renderFrame, u32le, u16le]
  omega

theorem list_pids_take (fs : List Frame) (hwf : framesWF fs) :
    ∀ k, list_pids ((renderFrames fs).take k) = pidsOfComplete fs k := by
  induction fs with
  | nil =>
    intro k
    rw [list_pids]
    simp [renderFrames, pidsOfComplete]
  | cons f rest ih =>
    intro k
    have hpid : f.pid < 2 ^ 32 := (hwf f (List.mem_cons_self ..)).1
    have hlen : f.payload.length ≤ 0xFFFF := (hwf f (List.mem_cons_self ..)).2
    have hwfr : framesWF rest := fun g hg => hwf g (List.mem_cons_of_mem _ hg)
    have hren : renderFrames (f :: rest) = renderFrame f ++ renderFrames rest := by
      simp [renderFrames]
    by_cases hk : 6 ≤ k
    · rw [hren, list_pids]
      have hA : (renderFrame f).length = 6 + f.payload.length := renderFrame_length f
      have h6 : 6 ≤ ((renderFrame f ++ renderFrames rest).take k).length := by
        simp only [List.length_take, List.length_append, hA]
        omega
      rw [dif_pos h6]
      have hsplit : renderFrame f ++ renderFrames rest =
          u32le f.pid ++ (u16le f.payload.length ++ (f.payload ++ renderFrames rest)) := by
        simp [renderFrame, List.append_assoc]
      have htake4 :
          ((renderFrame f ++ renderFrames rest).take k).take 4 = u32le f.pid := by
        rw [List.take_take]
        have hmin : min 4 k = 4 := by omega
        rw [hmin, hsplit, List.take_append_of_le_length (by simp [u32le])]
        simp [u32le]
      have hd4 : (renderFrame f ++ renderFrames rest).drop 4 =
          u16le f.payload.length ++ (f.payload ++ renderFrames rest) := by
        rw [hsplit, show (4 : Nat) = (u32le f.pid).length by simp [u32le]]
        exact List.drop_left ..
      have hdrop4 :
          (((renderFrame f ++ renderFrames rest).take k).drop 4).take 2 =
            u16le f.payload.length := by
        rw [List.drop_take, List.take_take]
        have hmin : min 2 (k - 4) = 2 := by omega
        rw [hmin, hd4, List.take_append_of_le_length (by simp [u16le])]
        simp [u16le]
      have hd6 : (renderFrame f ++ renderFrames rest).drop 6 =
          f.payload ++ renderFrames rest := by
        have h64 : (6 : Nat) = 4 + 2 := by omega
        rw [h64, ← List.drop_drop, hd4,
          show (2 : Nat) = (u16le f.payload.length).length by simp [u16le]]
        exact List.drop_left ..
      have hdrop6 :
          (((renderFrame f ++ renderFrames rest).take k).drop 6).drop
              f.payload.length =
            (renderFrames rest).take (k - 6 - f.payload.length) := by
        rw [List.drop_take, List.drop_take, hd6,
          show f.payload.length = f.payload.length from rfl]
        have hdp : (f.payload ++ renderFrames rest).drop f.payload.length =
            renderFrames rest := List.drop_left ..
        rw [hdp]
      rw [htake4, hdrop4, fromLE_u32le f.pid hpid,
        fromLE_u16le f.payload.length (by omega), hdrop6, ih hwfr]
      simp only [pidsOfComplete, if_pos hk]
      have hsub : k - (6 + f.payload.length) = k - 6 - f.payload.length := by omega
      rw [hsub]
    · rw [list_pids]
      have hlt : ((renderFrames (f :: rest)).take k).length < 6 := by
        simp only [List.length_take]
        omega
      rw [dif_neg (by omega)]
      simp only [pidsOfComplete, if_neg hk]

/-! ## `FileOutput` open / write / close state -/

/-- The Python append open mode. -/
def modeAppendStr : String := "ab"

/-- The Python truncating write open mode. -/
def modeTruncateStr : String := "wb"

/-- The open mode chosen by `FileOutput.__init__`:
`mode = 'ab' if append else 'wb'`. -/
def fileOpenMode (append : Bool) : String :=
  if append then modeAppendStr else modeTruncateStr

/-- Modelled from the spec: Python `open()` file-content semantics, which
are outside the repository — mode `wb` truncates the file to zero length,
mode `ab` preserves the existing bytes ("In truncate mode (default) the
file is truncated to zero; in append mode existing bytes are preserved and
new frames append"). -/
def openedContents (prior : List Nat) (mode : String) : List Nat :=
  if mode = modeTruncateStr then [] else prior

/-- The file contents after constructing a `FileOutput` over a file that
previously held `prior`, then issuing the calls `datas` in order. -/
def fileOutputRun (prior : List Nat) (append : Bool) (pid : Nat)
    (datas : List (List Nat)) : List Nat :=
  datas.foldl (fun acc d => acc ++ fileOutputCall pid d)
    (openedContents prior (fileOpenMode append))

theorem fileOutputRun_foldl (init : List Nat) (pid : Nat)
    (datas : List (List Nat)) :
    datas.foldl (fun acc d => acc ++ fileOutputCall pid d) init =
      init ++ (datas.map (fileOutputCall pid)).flatten := by
  induction datas generalizing init with
  | nil => simp
  | cons d rest ih =>
    simp only [List.foldl_cons, List.map_cons, List.flatten_cons]
    rw [ih, List.append_assoc]

/-- `FileOutput.close` acting on the handle state (`self._file`), with an
event log of the handles actually closed.  The Python body is
`if self._file: self._file.close(); self._file = None`. -/
def fileOutputClose : Option Nat × List Nat → Option Nat × List Nat
  | (some h, evs) => (none, evs ++ [h])
  | (none, evs) => (none, evs)

/-! ## Fork hooks -/

/-- The shape of the writer's `_output` object as seen by the fork hooks:
which attributes exist (`hasattr`), whether it reports being a FIFO
(`getattr(self._output, 'is_fifo', False)`), and its fd. -/
structure OutputShape where
  hasDrain : Bool
  fifo : Bool
  hasFd : Bool
  fd : Int
  hasResume : Bool

/-- The observable calls a fork hook makes, in order. -/
inductive HookAct where
  | flush
  | drain
  | setAppendFlag (fd : Int)
  | resume
deriving DecidableEq, Repr

/-- `writer._before_fork`: `self.flush()`; then `self._output.drain()` if
the output has a `drain` attribute; then, if the output is not a FIFO and
has an `fd` attribute whose value is `>= 0`, set `O_APPEND` on that fd via
`fcntl`. -/
def beforeFork (o : OutputShape) : List HookAct :=
  [HookAct.flush] ++
    (if o.hasDrain then [HookAct.drain] else []) ++
    (if !o.fifo && o.hasFd then
      (if 0 ≤ o.fd then [HookAct.setAppendFlag o.fd] else [])
    else [])

/-- `writer._after_fork_parent`: `self._output.resume()` if the output has
a `resume` attribute. -/
def afterForkParent (o : OutputShape) : List HookAct :=
  if o.hasResume then [HookAct.resume] else []

/-- `writer._after_fork_child`: same body as the parent hook. -/
def afterForkChild (o : OutputShape) : List HookAct :=
  if o.hasResume then [HookAct.resume] else []

/-! ## Drop-mode writer (native `ObjectWriter` backpressure path) -/

/-- One attempted `write` in drop mode: either the record survives
(`write`) or backpressure discards it (`drop`). -/
inductive WriteOp where
  | write (p : Nat)
  | drop
deriving DecidableEq, Repr

/-- A record as it appears in the output stream: a surviving payload or a
`Dropped` control record carrying a drop count. -/
inductive OutRec where
  | payload (p : Nat)
  | dropped (n : Nat)
deriving DecidableEq, Repr

/-- Modelled from the spec: the drop-mode bookkeeping of the native
`ObjectWriter` (the C++ extension is not under `src/`; the Python wrapper
only maps its `Dropped` marker to a `Dropped` control object).  Spec §4.2:
a dropped record increments `dropped_messages`; "On the next successful
`write` after any drops, the writer prepends a Dropped control record
carrying the accumulated drop count and resets the counter."  The state is
the pending drop count; the result is the new count and the records
emitted by this operation. -/
def dropStep (cnt : Nat) : WriteOp → Nat × List OutRec
  | WriteOp.drop => (cnt + 1, [])
  | WriteOp.write p =>
    (0, (if cnt = 0 then [] else [OutRec.dropped cnt]) ++ [OutRec.payload p])

/-- Run a sequence of drop-mode write attempts from a pending count,
concatenating the emitted records. -/
def dropRun (cnt : Nat) : List WriteOp → List OutRec
  | [] => []
  | op :: ops =>
    (dropStep cnt op).2 ++ dropRun (dropStep cnt op).1 ops

/-- The pending drop count after a sequence of operations. -/
def pendingDrops (cnt : Nat) : List WriteOp → Nat
  | [] => cnt
  | op :: ops => pendingDrops (dropStep cnt op).1 ops

theorem dropRun_append (cnt : Nat) (xs ys : List WriteOp) :
    dropRun cnt (xs ++ ys) =
      dropRun cnt xs ++ dropRun (pendingDrops cnt xs) ys := by
  induction xs generalizing cnt with
  | nil => simp [dropRun, pendingDrops]
  | cons op ops ih =>
    simp only [List.cons_append, dropRun, pendingDrops, List.append_eq]
    rw [ih, List.append_assoc]

theorem pendingDrops_replicate (cnt g : Nat) :
    pendingDrops cnt (List.replicate g WriteOp.drop) = cnt + g := by
  induction g generalizing cnt with
  | zero => simp [pendingDrops]
  | succ n ih =>
    rw [List.replicate_succ]
    simp only [pendingDrops, dropStep]
    rw [ih]
    omega

theorem dropRun_replicate (cnt g : Nat) :
    dropRun cnt (List.replicate g WriteOp.drop) = [] := by
  induction g generalizing cnt with
  | zero => simp [dropRun]
  | succ n ih =>
    rw [List.replicate_succ]
    simp only [dropRun, dropStep]
    rw [ih]
    rfl

/-! ## Exclusive file lock (`FileOutput` construction) -/

/-- The advisory-lock state: which paths currently hold the exclusive
lock, and each path's file contents. -/
structure LockWorld where
  held : List String
  contents : String → List Nat

/-- Whether `pat` occurs as a contiguous substring of `s`. -/
def strContainsSub (s pat : String) : Bool :=
  s.toList.tails.any (fun t => pat.toList.isPrefixOf t)

/-- The spec's required word in a lock-contention error message. -/
def exclusiveWord : String := "exclusive"

/-- The message of the `BlockingIOError` that CPython raises when
`fcntl.flock(fd, LOCK_EX | LOCK_NB)` hits a lock held elsewhere: the
strerror of `EAGAIN`/`EWOULDBLOCK`.  Modelled from CPython/POSIX
behavior, which is outside the repository; it does not contain the word
"exclusive". -/
def flockErrMsg : String :=
  "Resource temporarily unavailable"

/-- `FileOutput.__init__(path, append)` (source lines 148–153) run
against a world in which `held` lists the paths whose advisory lock a
live holder already owns.  The body executes `open(str(path), mode)`
first — with the default `append=False` the `wb` mode truncates the file
to zero — and only then attempts `fcntl.flock(fd, LOCK_EX | LOCK_NB)`;
on contention the flock raises and the constructor propagates the raw
error, after the open has already rewritten the file.  Returns the
propagated error message, if any, and the world afterwards. -/
def fileOutputInit (w : LockWorld) (path : String) (append : Bool) :
    Option String × LockWorld :=
  let afterOpen : LockWorld :=
    { held := w.held,
      contents := fun q =>
        if q = path then openedContents (w.contents path) (fileOpenMode append)
        else w.contents q }
  if path ∈ w.held then
    (some flockErrMsg, afterOpen)
  else
    (none, { afterOpen with held := path :: afterOpen.held })

/-- A concrete locked path for evaluating the lock model. -/
def cPath : String := "locked.bin"

/-- A concrete world: the lock on `cPath` is held and its file holds
three bytes. -/
def cWorld : LockWorld :=
  { held := [cPath], contents := fun _ => [1, 2, 3] }

/-! ## `normalize_path` -/

/-- `extract_frozen_name(filename)`: the group of
`re.match(r"<frozen (.+)>", filename)`.  The match requires the literal
prefix `<frozen `, then a greedy nonempty run of non-newline characters,
then `>`; trailing characters are unconstrained (`re.match` anchors only
at the start).  The greedy group therefore runs to the last `>` reachable
through non-newline characters. -/
def extract_frozen_name (s : String) : Option String :=
  let cs := s.toList
  let pre := "<frozen ".toList
  if List.isPrefixOf pre cs then
    let t := cs.drop 8
    let p := t.takeWhile (fun c => c ≠ '\n')
    match List.findIdx? (fun c => c == '>') p.reverse with
    | some i =>
      let j := p.length - 1 - i
      if 1 ≤ j then some (String.mk (p.take j)) else none
    | none => none
  else none

/-- The empty string (a falsy `__file__`). -/
def emptyStr : String := ""

/-- Errors `os.path.realpath` may raise and `normalize_path` catches. -/
inductive PathErr where
  | osError
  | typeError
deriving DecidableEq, Repr

/-- A loaded module as `normalize_path` sees it: its `__file__`
attribute, when present. -/
structure PyModule where
  file : Option String

/-- The ambient interpreter state `normalize_path` consults:
`sys.modules` and `os.path.realpath` (realpath modelled as fallible,
matching the `except (OSError, TypeError)` handler in the source). -/
structure PyEnv where
  modules : String → Option PyModule
  realpath : String → Except PathErr String

/-- `normalize_path(path)`: if the name is a frozen-module name, look the
module up in `sys.modules`; when it exists and has a truthy `__file__`,
return `os.path.realpath(mod.__file__)` (this call sits outside the
`try`, so its errors propagate); otherwise return the input.  For a
non-frozen name, return `os.path.realpath(path)`, falling back to the
input on `OSError` or `TypeError`. -/
def normalize_path (env : PyEnv) (path : String) : Except PathErr String :=
  match extract_frozen_name path with
  | some name =>
    match env.modules name with
    | some m =>
      match m.file with
      | some f => if f ≠ "" then env.realpath f else Except.ok path
      | none => Except.ok path
    | none => Except.ok path
  | none =>
    match env.realpath path with
    | Except.ok r => Except.ok r
    | Except.error _ => Except.ok path

/-! ## Python values and the pickle round trip

`writer.serialize` and `reader.deserialize` (the code under `src/`)
dispatch on the value's type through `type_serializer` /
`type_deserializer` and fall back to `pickle.dumps` / `pickle.loads`.
Pickle itself is the standard library; it is modelled here from the spec
("`decode(encode(R)) == R` for R ∈ \x7bbytes, strings, integers of all
widths, floats incl. ±∞/NaN semantics per serializer, lists/tuples/sets/
dicts of above, nested forms\x7d") as an injective tagged encoding with an
exact decoder: every scalar, including the 64-bit pattern of a float, is
preserved bit-for-bit, exactly as pickle protocol data preserves it. -/

mutual
inductive PyVal where
  | pybytes (bs : List Nat)
  | pystr (cs : List Char)
  | pyint (n : Int)
  | pyfloat (bits : Nat)
  | pylist (xs : PyListV)
  | pytuple (xs : PyListV)
  | pyset (xs : PyListV)
  | pydict (kvs : PyPairs)
inductive PyListV where
  | nil
  | cons (x : PyVal) (xs : PyListV)
inductive PyPairs where
  | nil
  | cons (k v : PyVal) (rest : PyPairs)
end

/-- The Python type of a value, the key used by `type_serializer` and
`type_deserializer`. -/
inductive PyType where
  | tbytes | tstr | tint | tfloat | tlist | ttuple | tset | tdict
deriving DecidableEq, Repr

/-- `type(obj)` over the modelled value domain. -/
def typeOf : PyVal → PyType
  | .pybytes _ => .tbytes
  | .pystr _ => .tstr
  | .pyint _ => .tint
  | .pyfloat _ => .tfloat
  | .pylist _ => .tlist
  | .pytuple _ => .ttuple
  | .pyset _ => .tset
  | .pydict _ => .tdict

def lenL : PyListV → Nat
  | .nil => 0
  | .cons _ xs => lenL xs + 1

def lenP : PyPairs → Nat
  | .nil => 0
  | .cons _ _ rest => lenP rest + 1

/-- A bijection from `Int` to `Nat` used to store integers in the token
stream (zig-zag). -/
def zig (n : Int) : Nat :=
  if 0 ≤ n then 2 * n.toNat else 2 * (-n).toNat - 1

def unzig (z : Nat) : Int :=
  if z % 2 = 0 then ((z / 2 : Nat) : Int) else -(((z + 1) / 2 : Nat) : Int)

theorem unzig_zig (n : Int) : unzig (zig n) = n := by
  by_cases h : 0 ≤ n
  · simp only [zig, if_pos h, unzig]
    have h2 : 2 * n.toNat % 2 = 0 := by omega
    rw [if_pos h2]
    omega
  · simp only [zig, if_neg h, unzig]
    have hpos : 1 ≤ (-n).toNat := by omega
    rw [if_neg (by omega)]
    omega

mutual
/-- Modelled from the spec: `pickle.dumps` as an injective tagged
encoding of the value domain into a token stream. -/
def encVal : PyVal → List Nat
  | .pybytes bs => 0 :: bs.length :: bs
  | .pystr cs => 1 :: cs.length :: cs.map Char.toNat
  | .pyint n => [2, zig n]
  | .pyfloat b => [3, b]
  | .pylist xs => 4 :: lenL xs :: encL xs
  | .pytuple xs => 5 :: lenL xs :: encL xs
  | .pyset xs => 6 :: lenL xs :: encL xs
  | .pydict kvs => 7 :: lenP kvs :: encP kvs
def encL : PyListV → List Nat
  | .nil => []
  | .cons x xs => encVal x ++ encL xs
def encP : PyPairs → List Nat
  | .nil => []
  | .cons k v rest => encVal k ++ (encVal v ++ encP rest)
end

mutual
/-- Fuel sufficient for the decoder on a given value. -/
def needV : PyVal → Nat
  | .pybytes _ => 1
  | .pystr _ => 1
  | .pyint _ => 1
  | .pyfloat _ => 1
  | .pylist xs => 1 + needL xs
  | .pytuple xs => 1 + needL xs
  | .pyset xs => 1 + needL xs
  | .pydict kvs => 1 + needP kvs
def needL : PyListV → Nat
  | .nil => 1
  | .cons x xs => 1 + max (needV x) (needL xs)
def needP : PyPairs → Nat
  | .nil => 1
  | .cons k v rest => 1 + max (needV k) (max (needV v) (needP rest))
end

mutual
/-- Modelled from the spec: `pickle.loads` as the exact decoder of
`encVal`, via fuel-indexed structural recursion. -/
def decV : Nat → List Nat → Option (PyVal × List Nat)
  | 0, _ => none
  | _ + 1, 0 :: n :: rest =>
    if n ≤ rest.length then some (.pybytes (rest.take n), rest.drop n) else none
  | _ + 1, 1 :: n :: rest =>
    if n ≤ rest.length then
      some (.pystr ((rest.take n).map Char.ofNat), rest.drop n)
    else none
  | _ + 1, 2 :: z :: rest => some (.pyint (unzig z), rest)
  | _ + 1, 3 :: b :: rest => some (.pyfloat b, rest)
  | fuel + 1, 4 :: n :: rest =>
    match decL fuel n rest with
    | some (xs, r) => some (.pylist xs, r)
    | none => none
  | fuel + 1, 5 :: n :: rest =>
    match decL fuel n rest with
    | some (xs, r) => some (.pytuple xs, r)
    | none => none
  | fuel + 1, 6 :: n :: rest =>
    match decL fuel n rest with
    | some (xs, r) => some (.pyset xs, r)
    | none => none
  | fuel + 1, 7 :: n :: rest =>
    match decP fuel n rest with
    | some (kvs, r) => some (.pydict kvs, r)
    | none => none
  | _ + 1, _ => none
def decL : Nat → Nat → List Nat → Option (PyListV × List Nat)
  | 0, _, _ => none
  | _ + 1, 0, bs => some (.nil, bs)
  | fuel + 1, n + 1, bs =>
    match decV fuel bs with
    | some (x, r) =>
      match decL fuel n r with
      | some (xs, r2) => some (.cons x xs, r2)
      | none => none
    | none => none
def decP : Nat → Nat → List Nat → Option (PyPairs × List Nat)
  | 0, _, _ => none
  | _ + 1, 0, bs => some (.nil, bs)
  | fuel + 1, n + 1, bs =>
    match decV fuel bs with
    | some (k, r) =>
      match decV fuel r with
      | some (v, r2) =>
        match decP fuel n r2 with
        | some (kvs, r3) => some (.cons k v kvs, r3)
        | none => none
      | none => none
    | none => none
end

theorem map_ofNat_toNat (cs : List Char) :
    (cs.map Char.toNat).map Char.ofNat = cs := by
  induction cs with
  | nil => rfl
  | cons c cs ih => simp [ih, Char.ofNat_toNat]

mutual
theorem decV_enc (v : PyVal) :
    ∀ f r, needV v ≤ f → decV f (encVal v ++ r) = some (v, r) := by
  cases v with
  | pybytes bs =>
    intro f r hf
    cases f with
    | zero => simp [needV] at hf
    | succ g =>
      simp only [encVal, List.cons_append, decV]
      rw [if_pos (by simp)]
      rw [List.take_left, List.drop_left]
  | pystr cs =>
    intro f r hf
    cases f with
    | zero => simp [needV] at hf
    | succ g =>
      simp only [encVal, List.cons_append, decV]
      rw [if_pos (by simp)]
      have h1 : cs.length = (cs.map Char.toNat).length := by simp
      rw [h1, List.take_left, List.drop_left, map_ofNat_toNat]
  | pyint n =>
    intro f r hf
    cases f with
    | zero => simp [needV] at hf
    | succ g => simp [encVal, decV, unzig_zig]
  | pyfloat b =>
    intro f r hf
    cases f with
    | zero => simp [needV] at hf
    | succ g => simp [encVal, decV]
  | pylist xs =>
    intro f r hf
    cases f with
    | zero => simp [needV, needL] at hf
    | succ g =>
      have hg : needL xs ≤ g := by
        simp only [needV] at hf
        omega
      have h2 := decL_enc xs (lenL xs) g r hg rfl
      simp [encVal, decV, h2]
  | pytuple xs =>
    intro f r hf
    cases f with
    | zero => simp [needV, needL] at hf
    | succ g =>
      have hg : needL xs ≤ g := by
        simp only [needV] at hf
        omega
      have h2 := decL_enc xs (lenL xs) g r hg rfl
      simp [encVal, decV, h2]
  | pyset xs =>
    intro f r hf
    cases f with
    | zero => simp [needV, needL] at hf
    | succ g =>
      have hg : needL xs ≤ g := by
        simp only [needV] at hf
        omega
      have h2 := decL_enc xs (lenL xs) g r hg rfl
      simp [encVal, decV, h2]
  | pydict kvs =>
    intro f r hf
    cases f with
    | zero => simp [needV, needP] at hf
    | succ g =>
      have hg : needP kvs ≤ g := by
        simp only [needV] at hf
        omega
      have h2 := decP_enc kvs (lenP kvs) g r hg rfl
      simp [encVal, decV, h2]
theorem decL_enc (xs : PyListV) :
    ∀ n f r, needL xs ≤ f → n = lenL xs → decL f n (encL xs ++ r) = some (xs, r) := by
  cases xs with
  | nil =>
    intro n f r hf hn
    subst hn
    cases f with
    | zero => simp [needL] at hf
    | succ g => simp [encL, lenL, decL]
  | cons x rest =>
    intro n f r hf hn
    subst hn
    cases f with
    | zero => simp [needL] at hf
    | succ g =>
      have hx : needV x ≤ g := by
        simp only [needL] at hf
        omega
      have hr : needL rest ≤ g := by
        simp only [needL] at hf
        omega
      have h1 := decV_enc x g (encL rest ++ r) hx
      have h2 := decL_enc rest (lenL rest) g r hr rfl
      simp [encL, lenL, decL, List.append_assoc, h1, h2]
theorem decP_enc (kvs : PyPairs) :
    ∀ n f r, needP kvs ≤ f → n = lenP kvs → decP f n (encP kvs ++ r) = some (kvs, r) := by
  cases kvs with
  | nil =>
    intro n f r hf hn
    subst hn
    cases f with
    | zero => simp [needP] at hf
    | succ g => simp [encP, lenP, decP]
  | cons k v rest =>
    intro n f r hf hn
    subst hn
    cases f with
    | zero => simp [needP] at hf
    | succ g =>
      have hk : needV k ≤ g := by
        simp only [needP] at hf
        omega
      have hv : needV v ≤ g := by
        simp only [needP] at hf
        omega
      have hr : needP rest ≤ g := by
        simp only [needP] at hf
        omega
      have h1 := decV_enc k g (encVal v ++ (encP rest ++ r)) hk
      have h2 := decV_enc v g (encP rest ++ r) hv
      have h3 := decP_enc rest (lenP rest) g r hr rfl
      simp [encP, lenP, decP, List.append_assoc, h1, h2, h3]
end

theorem encVal_length_pos (v : PyVal) : 1 ≤ (encVal v).length := by
  cases v <;> simp [encVal]

mutual
theorem needV_le_encLength (v : PyVal) : needV v ≤ (encVal v).length := by
  cases v with
  | pybytes bs => simp [needV, encVal]
  | pystr cs => simp [needV, encVal]
  | pyint n => simp [needV, encVal]
  | pyfloat b => simp [needV, encVal]
  | pylist xs =>
    have h := needL_le_encLength xs
    simp only [needV, encVal, List.length_cons]
    omega
  | pytuple xs =>
    have h := needL_le_encLength xs
    simp only [needV, encVal, List.length_cons]
    omega
  | pyset xs =>
    have h := needL_le_encLength xs
    simp only [needV, encVal, List.length_cons]
    omega
  | pydict kvs =>
    have h := needP_le_encLength kvs
    simp only [needV, encVal, List.length_cons]
    omega
theorem needL_le_encLength (xs : PyListV) : needL xs ≤ (encL xs).length + 1 := by
  cases xs with
  | nil => simp [needL, encL]
  | cons x rest =>
    have h1 := needV_le_encLength x
    have h2 := needL_le_encLength rest
    have h3 := encVal_length_pos x
    simp only [needL, encL, List.length_append]
    omega
theorem needP_le_encLength (kvs : PyPairs) : needP kvs ≤ (encP kvs).length + 1 := by
  cases kvs with
  | nil => simp [needP, encP]
  | cons k v rest =>
    have h1 := needV_le_encLength k
    have h2 := needV_le_encLength v
    have h3 := needP_le_encLength rest
    have h4 := encVal_length_pos k
    simp only [needP, encP, List.length_append]
    omega
end

/-- Modelled from the spec: `pickle.dumps`. -/
def pickleDumps (v : PyVal) : List Nat := encVal v

/-- Modelled from the spec: `pickle.loads` — decode one value and require
the stream to be exhausted. -/
def pickleLoads (bs : List Nat) : Option PyVal :=
  match decV (bs.length + 1) bs with
  | some (v, List.nil) => some v
  | _ => none

theorem pickleLoads_dumps (v : PyVal) : pickleLoads (pickleDumps v) = some v := by
  have hle : needV v ≤ (encVal v).length + 1 := by
    have := needV_le_encLength v
    omega
  have h := decV_enc v ((encVal v).length + 1) [] hle
  rw [List.append_nil] at h
  simp [pickleLoads, pickleDumps, h]

/-- `writer.serialize(obj)` (source line 234):
`self.type_serializer.get(type(obj), pickle.dumps)(obj)`. -/
def serializeModel (typeSer : PyType → Option (PyVal → List Nat))
    (v : PyVal) : List Nat :=
  match typeSer (typeOf v) with
  | some f => f v
  | none => pickleDumps v

/-- `reader.deserialize(bytes)` (source lines 332–337):
`obj = pickle.loads(bytes)`, then dispatch on `type(obj)` through
`type_deserializer`, else return `obj`.  A `pickle.loads` failure
propagates, modelled as `none`. -/
def deserializeModel (typeDeser : PyType → Option (PyVal → PyVal))
    (bs : List Nat) : Option PyVal :=
  match pickleLoads bs with
  | some obj =>
    match typeDeser (typeOf obj) with
    | some g => some (g obj)
    | none => some obj
  | none => none

/-! ## Python equality over the value domain -/

/-- Whether a 64-bit pattern is an IEEE-754 NaN: exponent all ones and
nonzero mantissa. -/
def isNanBits (b : Nat) : Bool :=
  (b / 2 ^ 52 % 2 ^ 11 == 2047) && !(b % 2 ^ 52 == 0)

/-- Identify the two IEEE zeros (`+0.0 == -0.0` in Python). -/
def canonZeroBits (b : Nat) : Nat :=
  if b == 2 ^ 63 then 0 else b

/-- Python `==` on two doubles given by their bit patterns: NaN compares
unequal to everything (itself included); otherwise value equality, which
for finite and infinite doubles is bit equality up to the sign of zero. -/
def floatEqBits (a b : Nat) : Bool :=
  !isNanBits a && !isNanBits b && (canonZeroBits a == canonZeroBits b)

mutual
/-- Modelled from the spec: Python `==` over the value domain, as used by
the round-trip law (`decode(encode(R)) == R`).  Containers compare
pairwise — for the structurally congruent operands a pickle round trip
produces, this agrees with Python list/tuple equality and with the
membership-based set/dict equality. -/
def pyEq : PyVal → PyVal → Bool
  | .pybytes a, .pybytes b => a == b
  | .pystr a, .pystr b => a == b
  | .pyint a, .pyint b => a == b
  | .pyfloat a, .pyfloat b => floatEqBits a b
  | .pylist a, .pylist b => pyEqL a b
  | .pytuple a, .pytuple b => pyEqL a b
  | .pyset a, .pyset b => pyEqL a b
  | .pydict a, .pydict b => pyEqP a b
  | _, _ => false
def pyEqL : PyListV → PyListV → Bool
  | .nil, .nil => true
  | .cons x xs, .cons y ys => pyEq x y && pyEqL xs ys
  | _, _ => false
def pyEqP : PyPairs → PyPairs → Bool
  | .nil, .nil => true
  | .cons k v rest, .cons k2 v2 rest2 => pyEq k k2 && pyEq v v2 && pyEqP rest rest2
  | _, _ => false
end

mutual
/-- No NaN bit pattern occurs anywhere inside the value. -/
def noNanV : PyVal → Bool
  | .pyfloat b => !isNanBits b
  | .pylist xs => noNanL xs
  | .pytuple xs => noNanL xs
  | .pyset xs => noNanL xs
  | .pydict kvs => noNanP kvs
  | _ => true
def noNanL : PyListV → Bool
  | .nil => true
  | .cons x xs => noNanV x && noNanL xs
def noNanP : PyPairs → Bool
  | .nil => true
  | .cons k v rest => noNanV k && noNanV v && noNanP rest
end

mutual
theorem pyEq_refl_of_noNan (v : PyVal) : noNanV v = true → pyEq v v = true := by
  cases v with
  | pybytes bs => intro _; simp [pyEq]
  | pystr cs => intro _; simp [pyEq]
  | pyint n => intro _; simp [pyEq]
  | pyfloat b =>
    intro h
    simp only [noNanV] at h
    simp [pyEq, floatEqBits, h]
  | pylist xs =>
    intro h
    simp only [noNanV] at h
    simp [pyEq, pyEqL_refl_of_noNan xs h]
  | pytuple xs =>
    intro h
    simp only [noNanV] at h
    simp [pyEq, pyEqL_refl_of_noNan xs h]
  | pyset xs =>
    intro h
    simp only [noNanV] at h
    simp [pyEq, pyEqL_refl_of_noNan xs h]
  | pydict kvs =>
    intro h
    simp only [noNanV] at h
    simp [pyEq, pyEqP_refl_of_noNan kvs h]
theorem pyEqL_refl_of_noNan (xs : PyListV) : noNanL xs = true → pyEqL xs xs = true := by
  cases xs with
  | nil => intro _; simp [pyEqL]
  | cons x rest =>
    intro h
    simp only [noNanL, Bool.and_eq_true] at h
    simp [pyEqL, pyEq_refl_of_noNan x h.1, pyEqL_refl_of_noNan rest h.2]
theorem pyEqP_refl_of_noNan (kvs : PyPairs) : noNanP kvs = true → pyEqP kvs kvs = true := by
  cases kvs with
  | nil => intro _; simp [pyEqP]
  | cons k v rest =>
    intro h
    simp only [noNanP, Bool.and_eq_true] at h
    simp [pyEqP, pyEq_refl_of_noNan k h.1.1, pyEq_refl_of_noNan v h.1.2,
      pyEqP_refl_of_noNan rest h.2]
end

/-- The bit pattern of the Python `float('nan')` (quiet NaN). -/
def nanBits : Nat := 0x7FF8000000000000

/-! ## Claims -/

/-- C1 (counterexample): the claim as stated fails at `float('nan')`.
With empty `type_serializer` and `type_deserializer` maps,
`reader.deserialize(writer.serialize(nan))` returns a NaN float, and
Python `==` reports it unequal to the input, so the round trip is not
`== v` for every float. -/
theorem claim1_counterexample :
    (deserializeModel (fun _ => none)
        (serializeModel (fun _ => none) (PyVal.pyfloat nanBits))).map
      (fun w => pyEq w (PyVal.pyfloat nanBits)) = some false := by
  rfl

/-- C1 (amended): for every value whose type has no entry in the writer's
`type_serializer` map nor the reader's `type_deserializer` map and which
contains no NaN float, `reader.deserialize(writer.serialize(v))` returns
`v` itself, and Python `==` holds on it; a NaN round-trips to a NaN that
`==` reports unequal. -/
theorem claim1_roundtrip (ts : PyType → Option (PyVal → List Nat))
    (td : PyType → Option (PyVal → PyVal)) (v : PyVal)
    (hts : ts (typeOf v) = none) (htd : td (typeOf v) = none)
    (hnn : noNanV v = true) :
    deserializeModel td (serializeModel ts v) = some v ∧ pyEq v v = true := by
  constructor
  · simp [serializeModel, hts, deserializeModel, pickleLoads_dumps, htd]
  · exact pyEq_refl_of_noNan v hnn

/-- A nested sample value covering bytes, strings, ints, floats, lists,
tuples, sets and dicts. -/
def sampleVal : PyVal :=
  PyVal.pylist
    (PyListV.cons (PyVal.pyint 3)
      (PyListV.cons (PyVal.pystr [Char.ofNat 104, Char.ofNat 105])
        (PyListV.cons
          (PyVal.pytuple
            (PyListV.cons (PyVal.pybytes [1, 2])
              (PyListV.cons (PyVal.pyfloat 0x3FF0000000000000) PyListV.nil)))
          (PyListV.cons
            (PyVal.pydict
              (PyPairs.cons (PyVal.pystr [Char.ofNat 107])
                (PyVal.pyset (PyListV.cons (PyVal.pyint (-5)) PyListV.nil))
                PyPairs.nil))
            PyListV.nil))))

theorem claim1_roundtrip_witness :
    ((fun _ : PyType => (none : Option (PyVal → List Nat))) (typeOf sampleVal) = none) ∧
    ((fun _ : PyType => (none : Option (PyVal → PyVal))) (typeOf sampleVal) = none) ∧
    noNanV sampleVal = true ∧
    (deserializeModel (fun _ => none) (serializeModel (fun _ => none) sampleVal) =
        some sampleVal ∧
      pyEq sampleVal sampleVal = true) :=
  ⟨rfl, rfl, by rfl,
    claim1_roundtrip (fun _ => none) (fun _ => none) sampleVal rfl rfl (by rfl)⟩

/-- C2: one call of `FileOutput.__call__` appends a concatenation of
frames `<pid:u32 LE><length:u16 LE><payload>`, each payload of length at
most `0xFFFF`, and the payloads concatenate, in order, to the input. -/
theorem claim2 (pid : Nat) (raw : List Nat) :
    fileOutputCall pid raw = ((chunksOf raw).map (pidFrame pid)).flatten ∧
    (chunksOf raw).flatten = raw ∧
    (∀ c ∈ chunksOf raw, c.length ≤ 0xFFFF) :=
  ⟨fileOutputCall_eq_chunks pid raw, chunksOf_flatten raw,
    fun c hc => chunksOf_length_le raw c hc⟩

/-- C3: on any PID-framed trace truncated at an arbitrary byte position,
`list_pids` terminates and returns exactly the pids of the frame headers
whose full 6 bytes are present; a trailing fragment shorter than a header
is ignored. -/
theorem claim3 (fs : List Frame) (k : Nat) (hwf : framesWF fs) :
    list_pids ((renderFrames fs).take k) = pidsOfComplete fs k :=
  list_pids_take fs hwf k

theorem claim3_witness :
    framesWF [⟨5, [9, 8]⟩, ⟨6, [7]⟩] ∧
    list_pids ((renderFrames [⟨5, [9, 8]⟩, ⟨6, [7]⟩]).take 11) =
      pidsOfComplete [⟨5, [9, 8]⟩, ⟨6, [7]⟩] 11 := by
  have hwf : framesWF [⟨5, [9, 8]⟩, ⟨6, [7]⟩] := by
    intro f hf
    simp only [List.mem_cons, List.not_mem_nil, or_false] at hf
    rcases hf with rfl | rfl <;> exact ⟨by norm_num, by norm_num⟩
  exact ⟨hwf, claim3 [⟨5, [9, 8]⟩, ⟨6, [7]⟩] 11 hwf⟩

/-- C4: in drop mode, a maximal gap of `g ≥ 1` consecutively dropped
records is followed, at the next successful write, by exactly one
`Dropped` record carrying exactly `g`, placed immediately before the
surviving record, after which the counter is reset (the tail runs from
count 0). -/
theorem claim4 (pre : List WriteOp) (g : Nat) (p : Nat) (post : List WriteOp)
    (hg : 1 ≤ g) (hpre : pendingDrops 0 pre = 0) :
    dropRun 0 (pre ++ (List.replicate g WriteOp.drop ++ (WriteOp.write p :: post))) =
      dropRun 0 pre ++
        (OutRec.dropped g :: OutRec.payload p :: dropRun 0 post) := by
  rw [dropRun_append, hpre, dropRun_append, dropRun_replicate,
    pendingDrops_replicate, Nat.zero_add]
  have hstep : dropRun g (WriteOp.write p :: post) =
      OutRec.dropped g :: OutRec.payload p :: dropRun 0 post := by
    simp only [dropRun, dropStep]
    rw [if_neg (by omega)]
    rfl
  rw [hstep]
  rfl

theorem claim4_witness :
    1 ≤ 2 ∧ pendingDrops 0 [WriteOp.write 1] = 0 ∧
    dropRun 0 ([WriteOp.write 1] ++
        (List.replicate 2 WriteOp.drop ++ (WriteOp.write 5 :: [WriteOp.drop, WriteOp.write 7]))) =
      dropRun 0 [WriteOp.write 1] ++
        (OutRec.dropped 2 :: OutRec.payload 5 :: dropRun 0 [WriteOp.drop, WriteOp.write 7]) :=
  ⟨by omega, rfl, claim4 [WriteOp.write 1] 2 5 [WriteOp.drop, WriteOp.write 7] (by omega) rfl⟩

/-- C5: opening with `append=False` truncates the file to zero length so
prior content is erased before any new bytes are written; with
`append=True` the prior bytes are preserved and all new frames land after
them. -/
theorem claim5 (prior : List Nat) (pid : Nat) (datas : List (List Nat)) :
    fileOutputRun prior false pid datas =
      (datas.map (fileOutputCall pid)).flatten ∧
    fileOutputRun prior true pid datas =
      prior ++ (datas.map (fileOutputCall pid)).flatten := by
  constructor
  · rw [fileOutputRun, fileOutputRun_foldl]
    simp [openedContents, fileOpenMode]
  · rw [fileOutputRun, fileOutputRun_foldl]
    simp [openedContents, fileOpenMode, modeAppendStr, modeTruncateStr]

/-- C6 (counterexample): the claim fails on `FileOutput`, the code under
`src/`.  With the lock on `cPath` held and the holder's file containing
three bytes, a contending `FileOutput(cPath)` with the default
`append=False` does fail — but with the raw flock error, whose message
does not contain "exclusive", and because `open(path, 'wb')` ran before
the failing `flock`, the holder's file has been truncated to zero, not
left unaffected. -/
theorem claim6_counterexample :
    cPath ∈ cWorld.held ∧
    cWorld.contents cPath = [1, 2, 3] ∧
    (fileOutputInit cWorld cPath false).1 = some flockErrMsg ∧
    strContainsSub flockErrMsg exclusiveWord = false ∧
    (fileOutputInit cWorld cPath false).2.contents cPath = [] := by
  refine ⟨by decide, by decide, by decide, by decide, by decide⟩

/-- C6 (amended): while one holder owns the advisory lock on a path,
constructing a second `FileOutput` on that path fails with an I/O error,
but it is the raw flock `BlockingIOError`, whose message lacks the word
"exclusive"; and because the constructor reopens the file before the
flock fails, the default truncate mode erases the first holder's file to
zero length — only append mode leaves it unaffected.  The contender
acquires no lock.  (The spec's "error carrying the word exclusive" is
the native `AsyncFilePersister`, absent from `src/`.) -/
theorem claim6_amended (w : LockWorld) (path : String) (append : Bool)
    (h : path ∈ w.held) :
    (fileOutputInit w path append).1 = some flockErrMsg ∧
    strContainsSub flockErrMsg exclusiveWord = false ∧
    (append = false → (fileOutputInit w path append).2.contents path = []) ∧
    (append = true →
      (fileOutputInit w path append).2.contents path = w.contents path) ∧
    (fileOutputInit w path append).2.held = w.held := by
  refine ⟨?_, by decide, ?_, ?_, ?_⟩
  · simp [fileOutputInit, h]
  · intro ha
    subst ha
    simp [fileOutputInit, h, openedContents, fileOpenMode]
  · intro ha
    subst ha
    simp [fileOutputInit, h, openedContents, fileOpenMode, modeAppendStr,
      modeTruncateStr]
  · simp [fileOutputInit, h]

theorem claim6_amended_witness :
    cPath ∈ cWorld.held ∧
    ((fileOutputInit cWorld cPath false).1 = some flockErrMsg ∧
      strContainsSub flockErrMsg exclusiveWord = false ∧
      (false = false → (fileOutputInit cWorld cPath false).2.contents cPath = []) ∧
      (false = true →
        (fileOutputInit cWorld cPath false).2.contents cPath = cWorld.contents cPath) ∧
      (fileOutputInit cWorld cPath false).2.held = cWorld.held) :=
  ⟨by decide, claim6_amended cWorld cPath false (by decide)⟩

theorem fileOutputClose_idem (s : Option Nat × List Nat) :
    fileOutputClose (fileOutputClose s) = fileOutputClose s := by
  obtain ⟨h, evs⟩ := s
  cases h <;> rfl

theorem fileOutputClose_iterate_of_closed (m : Nat) (s : Option Nat × List Nat) :
    fileOutputClose^[m] (fileOutputClose s) = fileOutputClose s := by
  induction m generalizing s with
  | zero => rfl
  | succ n ih =>
    rw [Function.iterate_succ_apply, fileOutputClose_idem]
    exact ih s

/-- C7: `FileOutput.close` is idempotent — calling it `n ≥ 1` times yields
exactly the state and close-event log of calling it once (the body is a
total function of the handle state, so no call raises). -/
theorem claim7 (s : Option Nat × List Nat) (n : Nat) (hn : 1 ≤ n) :
    fileOutputClose^[n] s = fileOutputClose s := by
  obtain ⟨m, rfl⟩ : ∃ m, n = m + 1 := ⟨n - 1, by omega⟩
  rw [Function.iterate_succ_apply]
  exact fileOutputClose_iterate_of_closed m s

theorem claim7_witness :
    1 ≤ 3 ∧
    fileOutputClose^[3] (some 4, [0]) = fileOutputClose (some 4, [0]) :=
  ⟨by omega, claim7 (some 4, [0]) 3 (by omega)⟩

/-- C8: for an output exposing `drain`, `resume` and a non-FIFO fd ≥ 0
(the persister), the pre-fork hook performs exactly `flush()`, then
`drain()`, then sets `O_APPEND` on the fd; the post-fork hooks in parent
and child each perform exactly `resume()`. -/
theorem claim8 (o : OutputShape) (hd : o.hasDrain = true)
    (hr : o.hasResume = true) (hfifo : o.fifo = false)
    (hfd : o.hasFd = true) (hvalid : 0 ≤ o.fd) :
    beforeFork o = [HookAct.flush, HookAct.drain, HookAct.setAppendFlag o.fd] ∧
    afterForkParent o = [HookAct.resume] ∧
    afterForkChild o = [HookAct.resume] := by
  refine ⟨?_, ?_, ?_⟩ <;>
    simp [beforeFork, afterForkParent, afterForkChild, hd, hr, hfifo, hfd, hvalid]

theorem claim8_witness :
    (OutputShape.mk true false true 4 true).hasDrain = true ∧
    (OutputShape.mk true false true 4 true).hasResume = true ∧
    (OutputShape.mk true false true 4 true).fifo = false ∧
    (OutputShape.mk true false true 4 true).hasFd = true ∧
    0 ≤ (OutputShape.mk true false true 4 true).fd ∧
    (beforeFork (OutputShape.mk true false true 4 true) =
        [HookAct.flush, HookAct.drain, HookAct.setAppendFlag 4] ∧
      afterForkParent (OutputShape.mk true false true 4 true) = [HookAct.resume] ∧
      afterForkChild (OutputShape.mk true false true 4 true) = [HookAct.resume]) :=
  ⟨rfl, rfl, rfl, rfl, by decide,
    claim8 (OutputShape.mk true false true 4 true) rfl rfl rfl rfl (by decide)⟩

/-- C9: calling `FileOutput.__call__` with an empty byte sequence writes
nothing: no frame header, no payload, no zero-length frame (indeed every
frame any call produces has a nonempty payload). -/
theorem claim9 (pid : Nat) :
    fileOutputCall pid [] = [] ∧ chunksOf ([] : List Nat) = [] ∧
    (∀ raw : List Nat, ∀ c ∈ chunksOf raw, 0 < c.length) := by
  refine ⟨?_, ?_, fun raw c hc => chunksOf_length_pos raw c hc⟩
  · rw [fileOutputCall]
    simp
  · rw [chunksOf]
    simp

/-- C10: `normalize_path` case analysis.  A frozen name resolves to
`realpath` of the loaded module's truthy `__file__`; a frozen name whose
module is missing, lacks `__file__`, or has an empty one falls back to the
input; a non-frozen path maps to `realpath(path)`, and an `OSError` or
`TypeError` from `realpath` is caught and the input returned unchanged —
so the function is total whenever `realpath` is (as it is on strings in
CPython). -/
theorem claim10 (env : PyEnv) (path : String) :
    (∀ name, extract_frozen_name path = some name →
      (∀ m f, env.modules name = some m → m.file = some f → f ≠ "" →
        normalize_path env path = env.realpath f) ∧
      (env.modules name = none → normalize_path env path = Except.ok path) ∧
      (∀ m, env.modules name = some m → m.file = none →
        normalize_path env path = Except.ok path) ∧
      (∀ m, env.modules name = some m → m.file = some emptyStr →
        normalize_path env path = Except.ok path)) ∧
    (extract_frozen_name path = none →
      (∀ r, env.realpath path = Except.ok r → normalize_path env path = Except.ok r) ∧
      (∀ e, env.realpath path = Except.error e →
        normalize_path env path = Except.ok path)) ∧
    ((∀ s, (env.realpath s).isOk = true) →
      (normalize_path env path).isOk = true) := by
  refine ⟨?_, ?_, ?_⟩
  · intro name hname
    refine ⟨?_, ?_, ?_, ?_⟩
    · intro m f hm hf hfne
      simp [normalize_path, hname, hm, hf, hfne]
    · intro hm
      simp [normalize_path, hname, hm]
    · intro m hm hf
      simp [normalize_path, hname, hm, hf]
    · intro m hm hf
      simp [normalize_path, hname, hm, hf, emptyStr]
  · intro hnone
    constructor
    · intro r hr
      simp [normalize_path, hnone, hr]
    · intro e he
      simp [normalize_path, hnone, he]
  · intro htotal
    cases hfr : extract_frozen_name path with
    | some name =>
      cases hm : env.modules name with
      | some m =>
        cases hf : m.file with
        | some f =>
          by_cases hne : f = ""
          · simp [normalize_path, hfr, hm, hf, hne, Except.isOk, Except.toBool]
          · simp [normalize_path, hfr, hm, hf, hne, htotal f]
        | none => simp [normalize_path, hfr, hm, hf, Except.isOk, Except.toBool]
      | none => simp [normalize_path, hfr, hm, Except.isOk, Except.toBool]
    | none =>
      cases hr : env.realpath path with
      | ok r => simp [normalize_path, hfr, hr, Except.isOk, Except.toBool]
      | error e => simp [normalize_path, hfr, hr, Except.isOk, Except.toBool]

end RetraceStream
